import Mathlib

/-!
Verification of the stream-recording scheduler (src/stream.py).

The script records network streams to disk for fixed time windows.  We give a
shallow embedding of its pure logic:

* times are `Int` (seconds on today's wall clock; the Python code uses
  `datetime` values, whose comparisons within one day are order-isomorphic to
  seconds-since-midnight);
* `Schedule` models the `Schedule` class (fields `start`, `end`);
* `create_schedules_from_template` models the function of the same name.  Its
  `while start_time < end_time` loop has no termination guarantee in the
  source, so the embedding uses explicit fuel and returns `none` exactly when
  the fuel chosen (more than `end_time - start_time` iterations, enough for
  any per-iteration advance of at least one second) is exhausted with the
  loop guard still true, i.e. when the Python loop cannot have terminated
  within that many iterations;
* the poll loop of `main` (lines 152-179) is modelled by `pendLoop` /
  `stopLoop` / `step` over association lists with `Nat` keys, mirroring the
  two dicts `records` and `handling_records` (Python dicts preserve insertion
  order; iteration is over a snapshot `list(records)` while entries are
  popped, which the recursion reproduces);
* the external capture engine (`vlc`) is out of scope; `start_record` is an
  oracle `sr` returning the `(instance, player, media)` handle triple, with
  handle type a parameter `α`;
* `generate_outfile` is modelled on the name it computes (the final
  `os.path.join(save_path, name)` only prepends the directory); `datetime.now
  ().strftime(...)` is the `timestamp` parameter, `os.listdir(save_path)` the
  `listing` parameter.  Its collision-avoidance `while` loop gets fuel
  `|d| + 1`; `none` again means the loop failed to exit within the fuel;
* `load_configuration` takes the parsed JSON object as an association list
  (JSON parsing is an external collaborator); a `KeyError` on subscript
  becomes `Except.error key`.
-/

set_option maxRecDepth 8000

namespace stream

/-- Time window, mirroring the Python `Schedule` class (`start`, `end`). -/
structure Schedule where
  start : Int
  «end» : Int
deriving DecidableEq, Repr

/-- One entry of the configured `stream_list`: `{"uri": ..., "name": ...}`. -/
structure StreamSource where
  uri : String
  name : String
deriving DecidableEq, Repr

/--
One value of the `records` dict built by `initialize_records`: the keys
`"uri"`, `"name"`, `"start"`, `"end"`, plus the keys `"instance"`,
`"player"`, `"media"` that `main` adds when the job starts recording
(absent, i.e. `none`, while the job is pending).  `α` is the opaque handle
type of the external capture engine.
-/
structure Rec (α : Type) where
  uri : String
  name : String
  start : Int
  «end» : Int
  inst : Option α
  player : Option α
  media : Option α
deriving DecidableEq, Repr

/-- The body of `while start_time < end_time` in
`create_schedules_from_template`: emit `[start_time, start_time+duration)`,
advance by `duration`, then by `break_time`.  `fuel` bounds the number of
iterations; `none` models non-termination of the Python loop within `fuel`
iterations. -/
def scheduleLoop (duration break_time : Int) : Nat → Int → Int → Option (List Schedule)
  | 0, start_time, end_time =>
    if start_time < end_time then none else some []
  | fuel + 1, start_time, end_time =>
    if start_time < end_time then
      match scheduleLoop duration break_time fuel (start_time + duration + break_time) end_time with
      | some rest => some (⟨start_time, start_time + duration⟩ :: rest)
      | none => none
    else some []

/-- Model of `create_schedules_from_template` (src/stream.py lines 60-82).
`tStart`/`tEnd` are the parsed `template["start"]`/`template["end"]` in
seconds, `durMin`/`brkMin` the `template["duration"]`/`template["break"]`
minute counts (`timedelta(minutes=...)` is 60 seconds per unit), `now` the
`datetime.now()` snapshot.  `if start_time < now: start_time = now` is the
clipping step.  The fuel `(tEnd - start_time).toNat + 1` exceeds the number
of loop iterations whenever each iteration advances the cursor by at least
one second, so `none` is returned only when the Python loop diverges (or
needs more than that many iterations, which requires a non-positive
advance). -/
def create_schedules_from_template (tStart tEnd durMin brkMin now : Int) : Option (List Schedule) :=
  let duration := 60 * durMin
  let break_time := 60 * brkMin
  let start_time := if tStart < now then now else tStart
  scheduleLoop duration break_time ((tEnd - start_time).toNat + 1) start_time tEnd

/-- Key list of an association list (the keys of a Python dict, in insertion
order). -/
def keys {β : Type} (l : List (Nat × β)) : List Nat := l.map Prod.fst

/-- Dict subscript `l[id]` on an association list. -/
def lookupKey {β : Type} (id : Nat) : List (Nat × β) → Option β
  | [] => none
  | p :: rest => if p.1 = id then some p.2 else lookupKey id rest

/-- Dict `pop(id)`: remove the entry with the given key. -/
def removeKey {β : Type} (id : Nat) (l : List (Nat × β)) : List (Nat × β) :=
  l.filter (fun p => decide (p.1 ≠ id))

/-- The job dicts of `main`: `records` (pending jobs) and `handling_records`
(recording jobs) are association lists from integer job ids to records. -/
abbrev JobMap (α : Type) := List (Nat × Rec α)

/-- The poll loop's promotion test `data["start"] < now < data["end"]`
(both comparisons strict in the source). -/
def condB {α : Type} (now : Int) (d : Rec α) : Bool :=
  decide (d.start < now) && decide (now < d.«end»)

/-- Attach the `(instance, player, media)` triple returned by `start_record`
to a record: `data["instance"] = instance`, `data["player"] = player`,
`data["media"] = media`. -/
def promoteWith {α : Type} (h : α × α × α) (d : Rec α) : Rec α :=
  { d with inst := some h.1, player := some h.2.1, media := some h.2.2 }

/-- Promotion using the capture-engine oracle `sr`, which models
`start_record(data["uri"], outfile)`; the oracle may depend on the job id and
the whole record, covering any dependence on uri and output path. -/
def promote {α : Type} (sr : Nat → Rec α → α × α × α) (id : Nat) (d : Rec α) : Rec α :=
  promoteWith (sr id d) d

/-- First half of one poll-loop iteration (src/stream.py lines 154-167): walk
the snapshot `rs = list(records)`; every job with
`data["start"] < now < data["end"]` is started, its record (with handles
attached) is appended to `handling_records`, and it is popped from
`records`. -/
def pendLoop {α : Type} (sr : Nat → Rec α → α × α × α) (now : Int) :
    List (Nat × Rec α) → JobMap α × JobMap α → JobMap α × JobMap α
  | [], st => st
  | (id, d) :: rest, (records, handling_records) =>
    if condB now d then
      pendLoop sr now rest
        (removeKey id records, handling_records ++ [(id, promote sr id d)])
    else pendLoop sr now rest (records, handling_records)

/-- Second half of one iteration (lines 169-177): walk the snapshot
`hrs = list(handling_records)`; every job with `now > data["end"]` is
stopped (`stop_record`) and popped. -/
def stopLoop {α : Type} (now : Int) :
    List (Nat × Rec α) → JobMap α → JobMap α
  | [], handling_records => handling_records
  | (id, d) :: rest, handling_records =>
    if decide (d.«end» < now) then stopLoop now rest (removeKey id handling_records)
    else stopLoop now rest handling_records

/-- One full poll-loop iteration at time snapshot `now` (the single
`datetime.now()` taken at line 153 is used by both halves; the second half
walks `handling_records` as it stands after the first half, so it also sees
the jobs promoted in this same iteration). -/
def step {α : Type} (sr : Nat → Rec α → α × α × α) (now : Int)
    (st : JobMap α × JobMap α) : JobMap α × JobMap α :=
  let st2 := pendLoop sr now st.1 st
  (st2.1, stopLoop now st2.2 st2.2)

/-- The records promoted in one iteration, in `records` order: the jobs
whose windows contain `now`, with their handle fields attached.  Closed form
of what `pendLoop` appends to `handling_records`. -/
def movedBy {α : Type} (sr : Nat → Rec α → α × α × α) (now : Int)
    (records : JobMap α) : JobMap α :=
  (records.filter (fun p => condB now p.2)).map (fun p => (p.1, promote sr p.1 p.2))

/-- Iterate the poll loop over a list of successive time snapshots. -/
def runSteps {α : Type} (sr : Nat → Rec α → α × α × α) (nows : List Int)
    (st : JobMap α × JobMap α) : JobMap α × JobMap α :=
  nows.foldl (fun s t => step sr t s) st

/-- Negation of the loop guard
`len(records) > 0 or len(handling_records) > 0`: `true` exactly when the
poll loop exits. -/
def loopDone {α : Type} (st : JobMap α × JobMap α) : Bool :=
  st.1.isEmpty && st.2.isEmpty

/-- First half of an iteration when the per-job work can raise: `act id d`
models everything `main` runs for one promoted job before mutating the dicts
(`print_log`, `generate_outfile`, `start_record`).  The source has no
`try`/`except` in the loop, so a raised exception aborts the walk
immediately and propagates out of `main`; the error value carries the dicts
as they stood at the moment of the raise. -/
def pendLoopE {α ε : Type} (act : Nat → Rec α → Except ε (α × α × α)) (now : Int) :
    List (Nat × Rec α) → JobMap α × JobMap α →
      Except (ε × JobMap α × JobMap α) (JobMap α × JobMap α)
  | [], st => Except.ok st
  | (id, d) :: rest, (records, handling_records) =>
    if condB now d then
      match act id d with
      | Except.error e => Except.error (e, records, handling_records)
      | Except.ok h =>
        pendLoopE act now rest
          (removeKey id records, handling_records ++ [(id, promoteWith h d)])
    else pendLoopE act now rest (records, handling_records)

/-- One fresh record of `initialize_records`: pending, no handle fields. -/
def mkRec {α : Type} (strm : StreamSource) (schedule : Schedule) : Rec α :=
  ⟨strm.uri, strm.name, schedule.start, schedule.«end», none, none, none⟩

/-- Model of `initialize_records` (lines 85-99): `pid` starts at `-1` and is
incremented before each insertion, i.e. keys are handed out from `0`
upwards; the fold state carries the next key to use.  Outer loop over
schedules, inner loop over streams, dict insertion order preserved. -/
def initialize_records {α : Type} (stream_list : List StreamSource)
    (schedules : List Schedule) : JobMap α :=
  (schedules.foldl
    (fun st schedule =>
      stream_list.foldl
        (fun st2 strm => (st2.1 + 1, st2.2 ++ [(st2.1, mkRec strm schedule)]))
        st)
    ((0 : Nat), ([] : JobMap α))).2

/-- Pair the elements of a list with consecutive keys starting at `n`; the
closed form of the id assignment performed by `initialize_records`. -/
def numbered {β : Type} : Nat → List β → List (Nat × β)
  | _, [] => []
  | n, x :: xs => (n, x) :: numbered (n + 1) xs

/-- Python `x.endswith(suffix)`. -/
def endswith (s suffix : String) : Bool := decide (suffix.data <:+ s.data)

/-- Python `stream_name.replace(' ', '_')` (single-character pattern). -/
def replace_spaces (s : String) : String :=
  String.mk (s.data.map (fun c => if c = ' ' then '_' else c))

/-- The `while name in d` loop of `generate_outfile`: candidate names are the
base name, then `<fn_str>_0<ext>`, `<fn_str>_1<ext>`, ...; the first
candidate not in `d` is returned.  `fuel` bounds the iterations (`none` when
exhausted; the caller passes `|d| + 1` and the loop leaves `d` untouched, so
the Python loop always terminates). -/
def findName (d : List String) (fn_str ext : String) :
    Nat → String → Nat → Option String
  | 0, name, _ => if name ∈ d then none else some name
  | fuel + 1, name, n =>
    if name ∈ d then
      findName d fn_str ext fuel (fn_str ++ "_" ++ toString n ++ ext) (n + 1)
    else some name

/-- Model of `generate_outfile` (lines 102-123) up to the final
`os.path.join(save_path, name)`, which only prepends the directory to the
returned filename: `timestamp` is `datetime.now().strftime('%Y%m%d_%H%M%S')`
and `listing` is `os.listdir(save_path)` at call time. -/
def generate_outfile_name (stream_name : String) (listing : List String)
    (timestamp : String) : Option String :=
  let ext := ".ts"
  let d := listing.filter (fun x => endswith x ext)
  let fn_str := timestamp ++ "_" ++ replace_spaces stream_name
  findName d fn_str ext (d.length + 1) (fn_str ++ ext) 0

/-- Python dict subscript `data[k]`, with `KeyError k` as `Except.error k`. -/
def getKey {V : Type} : List (String × V) → String → Except String V
  | [], k => Except.error k
  | p :: rest, k => if p.1 = k then Except.ok p.2 else getKey rest k

/-- Model of `load_configuration` (lines 33-39) after the external JSON
parse: returns `(stream_list, schedule_dict, schedule_template, save_path)`,
subscripting the four keys in the source's evaluation order; the first
missing key raises. -/
def load_configuration {V : Type} (data : List (String × V)) :
    Except String (V × V × V × V) :=
  match getKey data ("stream_list") with
  | Except.error e => Except.error e
  | Except.ok stream_list =>
    match getKey data ("schedule_dict") with
    | Except.error e => Except.error e
    | Except.ok schedule_dict =>
      match getKey data ("schedule_template") with
      | Except.error e => Except.error e
      | Except.ok schedule_template =>
        match getKey data ("save_path") with
        | Except.error e => Except.error e
        | Except.ok save_path =>
          Except.ok (stream_list, schedule_dict, schedule_template, save_path)

/-- Capture-engine oracle used in the concrete instances below. -/
def sr0 : Nat → Rec Nat → Nat × Nat × Nat := fun _ _ => (0, 0, 0)

/-- A job whose single window `[0, 10)` fully elapses before the first poll:
the failing input of C1. -/
def missedJob : Rec Nat := ⟨"rtsp://cam", "cam", 0, 10, none, none, none⟩

/-- Pending job used in concrete instances: window `[3, 10)`. -/
def wjb : Rec Nat := ⟨"u", "n", 3, 10, none, none, none⟩

/-- Recording job used in concrete instances: window `[0, 20)`, handles
attached. -/
def wjrec : Rec Nat := ⟨"u", "n", 0, 20, some 1, some 2, some 3⟩

/-- Pending job whose window starts exactly at the snapshot time `5`. -/
def cjb : Rec Nat := ⟨"u", "n", 5, 10, none, none, none⟩

/-- Recording job whose window ends exactly at the snapshot time `5`. -/
def cjrec : Rec Nat := ⟨"u", "n", 0, 5, some 1, some 2, some 3⟩

/-- First of two in-window pending jobs for the C7 instances. -/
def cjob0 : Rec Nat := ⟨"u0", "s0", 0, 10, none, none, none⟩

/-- Second of two in-window pending jobs for the C7 instances. -/
def cjob1 : Rec Nat := ⟨"u1", "s1", 0, 10, none, none, none⟩

/-- Per-job action that raises (error code 7) on job 0 and succeeds on every
other job. -/
def act0 : Nat → Rec Nat → Except Nat (Nat × Nat × Nat) :=
  fun id _ => if id = 0 then Except.error 7 else Except.ok (1, 2, 3)

/-- Parsed config object that is complete for explicit-schedule mode but has
no `schedule_template` key. -/
def data0 : List (String × Nat) :=
  [(("stream_list" : String), 0), (("schedule_dict" : String), 1), (("save_path" : String), 2)]

theorem scheduleLoop_sound (duration break_time end_time : Int)
    (hdur : 0 < duration) (hbrk : 0 ≤ break_time) :
    ∀ (fuel : Nat) (cursor : Int), (end_time - cursor).toNat < fuel →
      ∃ l, scheduleLoop duration break_time fuel cursor end_time = some l ∧
        (∀ s ∈ l, s.«end» = s.start + duration ∧ cursor ≤ s.start ∧ s.start < end_time) ∧
        List.Pairwise (fun a b => a.«end» ≤ b.start ∧ a.start < b.start) l ∧
        l.head? = (if cursor < end_time then some ⟨cursor, cursor + duration⟩ else none) := by
  intro fuel
  induction fuel with
  | zero => intro cursor h; omega
  | succ fuel ih =>
    intro cursor hfuel
    by_cases hce : cursor < end_time
    · obtain ⟨l', heq', hall', hpw', hhead'⟩ :=
        ih (cursor + duration + break_time) (by omega)
      refine ⟨⟨cursor, cursor + duration⟩ :: l', ?_, ?_, ?_, ?_⟩
      · simp [scheduleLoop, hce, heq']
      · intro s hs
        rcases List.mem_cons.mp hs with h | h
        · subst h; exact ⟨rfl, le_refl _, hce⟩
        · obtain ⟨h1, h2, h3⟩ := hall' s h
          exact ⟨h1, by omega, h3⟩
      · refine List.pairwise_cons.mpr ⟨?_, hpw'⟩
        intro b hb
        obtain ⟨_, h2, _⟩ := hall' b hb
        constructor
        · show cursor + duration ≤ b.start
          omega
        · show cursor < b.start
          omega
      · simp [hce]
    · refine ⟨[], ?_, by simp, by simp, by simp [hce]⟩
      simp [scheduleLoop, hce]

/--
C3: the claim states that a template whose slot duration is zero or negative
fails with a ConfigError before the poll loop begins.  The code
(src/stream.py lines 60-82) performs no validation at all: with
`duration = 0, break = 1` (template window 00:00:00 to 00:02:00, `now` at
midnight) it silently returns the empty windows `[0,0)` and `[60,60)` — jobs
that can never satisfy the poll loop's `start < now < end` test — and with
`duration = 0, break = 0` its `while start_time < end_time` loop never
terminates (the embedding returns `none` exactly in that case).  There is no
`ConfigError` (or any error path) anywhere in the script.
-/
theorem C3_thm :
    create_schedules_from_template 0 120 0 1 0 = some [⟨0, 0⟩, ⟨60, 60⟩] ∧
    create_schedules_from_template 0 120 0 0 0 = none := by
  exact ⟨by decide, by decide⟩

/--
C5: for every template with `slotDuration > 0`, `breakDuration ≥ 0` and
`windowStart < windowEnd`, the generated windows have length exactly
`slotDuration` (60·durMin seconds), every emitted start is strictly below
`windowEnd`, the windows are non-overlapping (`a.end ≤ b.start` for every
earlier/later pair), strictly increasing in start time, and when
`windowStart < now` the first window starts exactly at `now` (truncation,
not skipping).
-/
theorem C5_thm (tStart tEnd durMin brkMin now : Int) (l : List Schedule)
    (hdur : 0 < durMin) (hbrk : 0 ≤ brkMin) (hse : tStart < tEnd)
    (hl : create_schedules_from_template tStart tEnd durMin brkMin now = some l) :
    (∀ s ∈ l, s.«end» = s.start + 60 * durMin ∧ s.start < tEnd) ∧
    List.Pairwise (fun a b => a.«end» ≤ b.start) l ∧
    List.Pairwise (fun a b => a.start < b.start) l ∧
    (tStart < now → now < tEnd → l.head? = some ⟨now, now + 60 * durMin⟩) := by
  simp only [create_schedules_from_template] at hl
  obtain ⟨l₀, heq, hall, hpw, hhead⟩ :=
    scheduleLoop_sound (60 * durMin) (60 * brkMin) tEnd (by omega) (by omega)
      ((tEnd - (if tStart < now then now else tStart)).toNat + 1)
      (if tStart < now then now else tStart) (by omega)
  rw [hl] at heq
  obtain rfl : l = l₀ := by injection heq
  refine ⟨fun s hs => ⟨(hall s hs).1, (hall s hs).2.2⟩,
    hpw.imp (fun h => h.1), hpw.imp (fun h => h.2), ?_⟩
  intro h1 h2
  rw [if_pos h1] at hhead
  rw [if_pos h2] at hhead
  exact hhead

/-- Witness for C5 at the concrete template start 0, end 130, duration 1
minute, break 0, evaluated at now = 7. -/
theorem C5_thm_witness :
    ([⟨7, 67⟩, ⟨67, 127⟩, ⟨127, 187⟩] : List Schedule).head? = some ⟨7, 7 + 60 * 1⟩ :=
  (C5_thm 0 130 1 0 7 [⟨7, 67⟩, ⟨67, 127⟩, ⟨127, 187⟩]
    (by decide) (by decide) (by decide) (by decide)).2.2.2 (by decide) (by decide)

theorem mem_keys {β : Type} {id : Nat} {l : List (Nat × β)} :
    id ∈ keys l ↔ ∃ d, (id, d) ∈ l := by
  constructor
  · intro h
    obtain ⟨⟨a, b⟩, hm, he⟩ := List.mem_map.mp h
    dsimp at he
    subst he
    exact ⟨b, hm⟩
  · rintro ⟨d, hd⟩
    exact List.mem_map.mpr ⟨(id, d), hd, rfl⟩

theorem keys_append {β : Type} (a b : List (Nat × β)) :
    keys (a ++ b) = keys a ++ keys b :=
  List.map_append _ _ _

theorem keys_filter_sublist {β : Type} (q : Nat × β → Bool) (l : List (Nat × β)) :
    List.Sublist (keys (l.filter q)) (keys l) :=
  (List.filter_sublist l).map _

theorem keys_map_snd {β γ : Type} (g : Nat × β → γ) (l : List (Nat × β)) :
    keys (l.map (fun p => (p.1, g p))) = keys l := by
  simp [keys, List.map_map]

theorem mem_keys_filter {β : Type} {q : Nat × β → Bool} {id : Nat} {d : β} :
    ∀ {l : List (Nat × β)}, (id, d) ∈ l → (keys l).Nodup →
      (id ∈ keys (l.filter q) ↔ q (id, d) = true) := by
  intro l
  induction l with
  | nil => intro h; exact absurd h (List.not_mem_nil _)
  | cons p rest ih =>
    intro hmem hnd
    have hk : keys (p :: rest) = p.1 :: keys rest := rfl
    rw [hk] at hnd
    obtain ⟨hnd1, hnd2⟩ := List.nodup_cons.mp hnd
    rcases List.mem_cons.mp hmem with heq | hmem'
    · subst heq
      rw [List.filter_cons]
      by_cases hq : q (id, d) = true
      · rw [if_pos hq]
        have hkk : keys ((id, d) :: rest.filter q) = id :: keys (rest.filter q) := rfl
        rw [hkk]
        simp [hq, List.mem_cons]
      · rw [if_neg hq]
        constructor
        · intro hcontra
          exact absurd ((keys_filter_sublist q rest).subset hcontra) hnd1
        · intro h
          exact absurd h hq
    · have hidr : id ∈ keys rest := mem_keys.mpr ⟨d, hmem'⟩
      have hne : p.1 ≠ id := fun he => hnd1 (he ▸ hidr)
      rw [List.filter_cons]
      by_cases hq : q p = true
      · simp only [hq, if_pos]
        have : keys (p :: rest.filter q) = p.1 :: keys (rest.filter q) := rfl
        rw [this, List.mem_cons]
        rw [ih hmem' hnd2]
        constructor
        · rintro (h | h)
          · exact absurd h.symm hne
          · exact h
        · exact fun h => Or.inr h
      · rw [if_neg hq]
        exact ih hmem' hnd2

theorem lookupKey_mem {β : Type} {id : Nat} {d : β} :
    ∀ {l : List (Nat × β)}, lookupKey id l = some d → (id, d) ∈ l := by
  intro l
  induction l with
  | nil => intro h; exact absurd h (by simp [lookupKey])
  | cons p rest ih =>
    intro h
    rw [lookupKey] at h
    by_cases hp : p.1 = id
    · rw [if_pos hp] at h
      injection h with h
      subst h
      subst hp
      exact List.mem_cons_self _ _
    · rw [if_neg hp] at h
      exact List.mem_cons_of_mem _ (ih h)

theorem lookupKey_eq_some {β : Type} {id : Nat} {d : β} :
    ∀ {l : List (Nat × β)}, (keys l).Nodup → (id, d) ∈ l →
      lookupKey id l = some d := by
  intro l
  induction l with
  | nil => intro _ h; exact absurd h (List.not_mem_nil _)
  | cons p rest ih =>
    intro hnd hmem
    have hk : keys (p :: rest) = p.1 :: keys rest := rfl
    rw [hk] at hnd
    obtain ⟨hnd1, hnd2⟩ := List.nodup_cons.mp hnd
    rcases List.mem_cons.mp hmem with heq | hmem'
    · rw [lookupKey, ← heq]
      simp
    · have hidr : id ∈ keys rest := mem_keys.mpr ⟨d, hmem'⟩
      have hne : p.1 ≠ id := fun he => hnd1 (he ▸ hidr)
      rw [lookupKey, if_neg hne]
      exact ih hnd2 hmem'

theorem lookupKey_eq_none {β : Type} {id : Nat} :
    ∀ {l : List (Nat × β)}, id ∉ keys l → lookupKey id l = none := by
  intro l
  induction l with
  | nil => intro _; rfl
  | cons p rest ih =>
    intro h
    have hk : keys (p :: rest) = p.1 :: keys rest := rfl
    rw [hk] at h
    have h1 : p.1 ≠ id := fun he => h (by rw [he]; exact List.mem_cons_self _ _)
    have h2 : id ∉ keys rest := fun hh => h (List.mem_cons_of_mem _ hh)
    rw [lookupKey, if_neg h1]
    exact ih h2

theorem lookupKey_removeKey_ne {β : Type} {id q : Nat} (hne : q ≠ id) :
    ∀ (l : List (Nat × β)), lookupKey q (removeKey id l) = lookupKey q l := by
  intro l
  induction l with
  | nil => rfl
  | cons p rest ih =>
    rw [removeKey, List.filter_cons]
    by_cases hp : p.1 = id
    · rw [if_neg (by simp [hp])]
      rw [lookupKey, if_neg (by rw [hp]; exact fun h => hne h.symm)]
      exact ih
    · rw [if_pos (by simp [hp])]
      rw [lookupKey, lookupKey]
      by_cases hq : p.1 = q
      · rw [if_pos hq, if_pos hq]
      · rw [if_neg hq, if_neg hq]
        exact ih

theorem removeKey_not_mem {β : Type} {id : Nat} :
    ∀ {l : List (Nat × β)}, id ∉ keys l → removeKey id l = l := by
  intro l
  induction l with
  | nil => intro _; rfl
  | cons p rest ih =>
    intro h
    have hk : keys (p :: rest) = p.1 :: keys rest := rfl
    rw [hk] at h
    have h1 : p.1 ≠ id := fun he => h (by rw [he]; exact List.mem_cons_self _ _)
    have h2 : id ∉ keys rest := fun hh => h (List.mem_cons_of_mem _ hh)
    rw [removeKey, List.filter_cons, if_pos (by simp [h1])]
    rw [show rest.filter (fun p => decide (p.1 ≠ id)) = removeKey id rest from rfl]
    rw [ih h2]

theorem removeKey_append_cons {β : Type} {id : Nat} {pre rest : List (Nat × β)}
    (h1 : id ∉ keys pre) (h2 : id ∉ keys rest) (x : Nat × β) (hx : x.1 = id) :
    removeKey id (pre ++ x :: rest) = pre ++ rest := by
  rw [removeKey, List.filter_append, List.filter_cons]
  rw [if_neg (by simp [hx])]
  rw [show (pre.filter fun p => decide (p.1 ≠ id)) = removeKey id pre from rfl]
  rw [show (rest.filter fun p => decide (p.1 ≠ id)) = removeKey id rest from rfl]
  rw [removeKey_not_mem h1, removeKey_not_mem h2]

theorem foldl_remove {β : Type} (cond : Nat × β → Bool) :
    ∀ (todo pre : List (Nat × β)), (keys (pre ++ todo)).Nodup →
      List.foldl (fun acc p => if cond p then removeKey p.1 acc else acc)
        (pre ++ todo) todo
      = pre ++ todo.filter (fun p => !(cond p)) := by
  intro todo
  induction todo with
  | nil => intro pre _; simp
  | cons x rest ih =>
    intro pre hnd
    have hnd' : (keys pre ++ x.1 :: keys rest).Nodup := by
      rw [keys_append] at hnd
      exact hnd
    obtain ⟨hp, hxr, hdisj⟩ := List.nodup_append.mp hnd'
    have hx1 : x.1 ∉ keys pre := fun h => hdisj h (List.mem_cons_self _ _)
    have hx2 : x.1 ∉ keys rest := (List.nodup_cons.mp hxr).1
    rw [List.foldl_cons]
    by_cases hc : cond x = true
    · rw [if_pos hc]
      rw [removeKey_append_cons hx1 hx2 x rfl]
      have hsub : List.Sublist (keys (pre ++ rest)) (keys (pre ++ x :: rest)) := by
        rw [keys_append, keys_append]
        have h0 : List.Sublist (keys rest) (keys (x :: rest)) := by
          rw [show keys (x :: rest) = x.1 :: keys rest from rfl]
          exact List.sublist_cons_self _ _
        exact h0.append_left (keys pre)
      have := ih pre (List.Nodup.sublist hsub hnd)
      rw [this]
      rw [List.filter_cons, if_neg (by simp [hc])]
    · rw [if_neg hc]
      have hre : pre ++ x :: rest = (pre ++ [x]) ++ rest := by simp
      have hnd2 : (keys ((pre ++ [x]) ++ rest)).Nodup := by
        rw [← hre]
        exact hnd
      have := ih (pre ++ [x]) hnd2
      rw [hre, this]
      rw [List.filter_cons, if_pos (by simp [hc])]
      simp

theorem pendLoop_eq {α : Type} (sr : Nat → Rec α → α × α × α) (now : Int) :
    ∀ (todo : List (Nat × Rec α)) (records handling_records : JobMap α),
      pendLoop sr now todo (records, handling_records)
        = (List.foldl (fun acc p => if condB now p.2 then removeKey p.1 acc else acc)
             records todo,
           handling_records
             ++ (todo.filter (fun p => condB now p.2)).map
                  (fun p => (p.1, promote sr p.1 p.2))) := by
  intro todo
  induction todo with
  | nil => intro r h; simp [pendLoop]
  | cons x rest ih =>
    intro r h
    obtain ⟨id, d⟩ := x
    by_cases hc : condB now d = true
    · rw [pendLoop, if_pos hc, ih]
      rw [List.foldl_cons, List.filter_cons]
      simp [hc]
    · rw [pendLoop, if_neg hc, ih]
      rw [List.foldl_cons, List.filter_cons]
      simp [hc]

theorem stopLoop_eq {α : Type} (now : Int) :
    ∀ (todo : List (Nat × Rec α)) (handling_records : JobMap α),
      stopLoop now todo handling_records
        = List.foldl
            (fun acc p => if decide (p.2.«end» < now) then removeKey p.1 acc else acc)
            handling_records todo := by
  intro todo
  induction todo with
  | nil => intro h; simp [stopLoop]
  | cons x rest ih =>
    intro h
    obtain ⟨id, d⟩ := x
    by_cases hc : decide (d.«end» < now) = true
    · rw [stopLoop, if_pos hc, ih, List.foldl_cons]
      simp [hc]
    · rw [stopLoop, if_neg hc, ih, List.foldl_cons]
      simp [hc]

theorem hand_nodup {α : Type} (sr : Nat → Rec α → α × α × α) (now : Int)
    (records handling_records : JobMap α)
    (hnd : (keys records ++ keys handling_records).Nodup) :
    (keys (handling_records ++ movedBy sr now records)).Nodup := by
  obtain ⟨hr, hh, hdisj⟩ := List.nodup_append.mp hnd
  rw [keys_append]
  rw [show keys (movedBy sr now records)
      = keys (records.filter (fun p => condB now p.2)) from keys_map_snd _ _]
  refine List.nodup_append.mpr ⟨hh, ?_, ?_⟩
  · exact List.Nodup.sublist (keys_filter_sublist _ _) hr
  · intro a ha hb
    exact hdisj ((keys_filter_sublist _ _).subset hb) ha

theorem step_fst {α : Type} (sr : Nat → Rec α → α × α × α) (now : Int)
    (records handling_records : JobMap α) (hr : (keys records).Nodup) :
    (step sr now (records, handling_records)).1
      = records.filter (fun p => !(condB now p.2)) := by
  have h0 := foldl_remove (fun p => condB now p.2) records ([] : JobMap α)
      (by simpa using hr)
  simp only [step, pendLoop_eq]
  simpa using h0

theorem step_snd {α : Type} (sr : Nat → Rec α → α × α × α) (now : Int)
    (records handling_records : JobMap α)
    (hnd : (keys records ++ keys handling_records).Nodup) :
    (step sr now (records, handling_records)).2
      = (handling_records ++ movedBy sr now records).filter
          (fun p => !(decide (p.2.«end» < now))) := by
  have hmv := hand_nodup sr now records handling_records hnd
  have h0 := foldl_remove (fun p => decide (p.2.«end» < now))
      (handling_records ++ movedBy sr now records) ([] : JobMap α)
      (by simpa using hmv)
  simp only [step, pendLoop_eq, stopLoop_eq]
  simp only [movedBy] at h0 ⊢
  simpa using h0

theorem condB_iff {α : Type} (now : Int) (d : Rec α) :
    condB now d = true ↔ (d.start < now ∧ now < d.«end») := by
  simp [condB]

theorem promote_end {α : Type} (sr : Nat → Rec α → α × α × α) (id : Nat) (d : Rec α) :
    (promote sr id d).«end» = d.«end» := rfl

theorem mem_movedBy {α : Type} (sr : Nat → Rec α → α × α × α) (now : Int)
    {records : JobMap α} {id : Nat} {d : Rec α}
    (hmem : (id, d) ∈ records) (hc : condB now d = true) :
    (id, promote sr id d) ∈ movedBy sr now records := by
  rw [movedBy]
  exact List.mem_map.mpr ⟨(id, d), List.mem_filter.mpr ⟨hmem, hc⟩, rfl⟩

theorem keys_movedBy {α : Type} (sr : Nat → Rec α → α × α × α) (now : Int)
    (records : JobMap α) :
    keys (movedBy sr now records) = keys (records.filter (fun p => condB now p.2)) :=
  keys_map_snd _ _

theorem step_handling_mem_of_pending {α : Type} (sr : Nat → Rec α → α × α × α)
    (now : Int) (records handling_records : JobMap α) (id : Nat) (d : Rec α)
    (hnd : (keys records ++ keys handling_records).Nodup)
    (hmem : (id, d) ∈ records) :
    id ∈ keys (step sr now (records, handling_records)).2
      ↔ (d.start < now ∧ now < d.«end») := by
  obtain ⟨hr, hh, hdisj⟩ := List.nodup_append.mp hnd
  rw [step_snd sr now records handling_records hnd]
  have hmv := hand_nodup sr now records handling_records hnd
  by_cases hc : condB now d = true
  · rw [iff_true_intro ((condB_iff now d).mp hc), iff_true]
    have hmem2 : (id, promote sr id d) ∈ handling_records ++ movedBy sr now records :=
      List.mem_append_right _ (mem_movedBy sr now hmem hc)
    rw [mem_keys_filter hmem2 hmv]
    have hnotlt : ¬(d.«end» < now) := by
      have := ((condB_iff now d).mp hc).2
      omega
    simp [promote_end, hnotlt]
  · rw [iff_false_intro (fun h => hc ((condB_iff now d).mpr h)), iff_false]
    intro hcontra
    have hsub := (keys_filter_sublist (fun p => !(decide (p.2.«end» < now)))
      (handling_records ++ movedBy sr now records)).subset hcontra
    rw [keys_append, keys_movedBy] at hsub
    rcases List.mem_append.mp hsub with hba | hbb
    · exact hdisj (mem_keys.mpr ⟨d, hmem⟩) hba
    · exact hc ((mem_keys_filter hmem hr).mp hbb)

theorem step_records_mem_of_pending {α : Type} (sr : Nat → Rec α → α × α × α)
    (now : Int) (records handling_records : JobMap α) (id : Nat) (d : Rec α)
    (hnd : (keys records ++ keys handling_records).Nodup)
    (hmem : (id, d) ∈ records) :
    id ∈ keys (step sr now (records, handling_records)).1
      ↔ ¬(d.start < now ∧ now < d.«end») := by
  obtain ⟨hr, _, _⟩ := List.nodup_append.mp hnd
  rw [step_fst sr now records handling_records hr]
  rw [mem_keys_filter hmem hr]
  rw [← condB_iff now d]
  simp

theorem step_handling_mem_of_handling {α : Type} (sr : Nat → Rec α → α × α × α)
    (now : Int) (records handling_records : JobMap α) (id : Nat) (d : Rec α)
    (hnd : (keys records ++ keys handling_records).Nodup)
    (hmem : (id, d) ∈ handling_records) :
    id ∈ keys (step sr now (records, handling_records)).2 ↔ ¬(d.«end» < now) := by
  rw [step_snd sr now records handling_records hnd]
  have hmv := hand_nodup sr now records handling_records hnd
  have hmem2 : (id, d) ∈ handling_records ++ movedBy sr now records :=
    List.mem_append_left _ hmem
  rw [mem_keys_filter hmem2 hmv]
  simp

theorem step_records_not_of_handling {α : Type} (sr : Nat → Rec α → α × α × α)
    (now : Int) (records handling_records : JobMap α) (id : Nat)
    (hnd : (keys records ++ keys handling_records).Nodup)
    (hmem : id ∈ keys handling_records) :
    id ∉ keys (step sr now (records, handling_records)).1 := by
  obtain ⟨hr, _, hdisj⟩ := List.nodup_append.mp hnd
  rw [step_fst sr now records handling_records hr]
  intro hcontra
  exact hdisj ((keys_filter_sublist _ _).subset hcontra) hmem

theorem step_nodup {α : Type} (sr : Nat → Rec α → α × α × α) (now : Int)
    (records handling_records : JobMap α)
    (hnd : (keys records ++ keys handling_records).Nodup) :
    (keys (step sr now (records, handling_records)).1
      ++ keys (step sr now (records, handling_records)).2).Nodup := by
  obtain ⟨hr, hh, hdisj⟩ := List.nodup_append.mp hnd
  rw [step_fst sr now records handling_records hr,
    step_snd sr now records handling_records hnd]
  have hmv := hand_nodup sr now records handling_records hnd
  refine List.nodup_append.mpr
    ⟨List.Nodup.sublist (keys_filter_sublist _ _) hr,
     List.Nodup.sublist (keys_filter_sublist _ _) hmv, ?_⟩
  intro a ha hb
  obtain ⟨da, hda⟩ := mem_keys.mp ha
  obtain ⟨hda1, hda2⟩ := List.mem_filter.mp (lookupKey_mem
    (lookupKey_eq_some (List.Nodup.sublist (keys_filter_sublist _ _) hr) hda))
  have hb' := (keys_filter_sublist _ _).subset hb
  rw [keys_append, keys_movedBy] at hb'
  rcases List.mem_append.mp hb' with hba | hbb
  · exact hdisj (mem_keys.mpr ⟨da, hda1⟩) hba
  · have hcond := (mem_keys_filter hda1 hr).mp hbb
    rw [hcond] at hda2
    simp at hda2

/--
C1: the claim states that a Pending job whose window fully elapsed before
ever being observed inside the window is removed from the Pending collection
(without the recorder being started), so that the loop still terminates.
The code has no such removal: promotion requires `start < now < end` and
there is no other branch touching `records`, so a job first observed after
its window end stays in `records` at every subsequent iteration and the
loop guard `len(records) > 0 or len(handling_records) > 0` never becomes
false.  This theorem evaluates the code at the failing input: one job with
window `[0, 10)` and any sequence of poll snapshots all at or past `10`
leaves the state fixed (the job is indeed never started — its handle fields
stay `none` — but it is never dropped either, and `loopDone` stays false
forever).
-/
theorem C1_thm (sr : Nat → Rec Nat → Nat × Nat × Nat) (nows : List Int)
    (h : ∀ t ∈ nows, (10 : Int) ≤ t) :
    runSteps sr nows ([(0, missedJob)], []) = ([(0, missedJob)], []) ∧
    loopDone (runSteps sr nows ([(0, missedJob)], [])) = false := by
  have key : ∀ t : Int, (10 : Int) ≤ t →
      step sr t ([(0, missedJob)], ([] : JobMap Nat)) = ([(0, missedJob)], []) := by
    intro t ht
    have hc : condB t missedJob = false := by
      have h2 : decide (t < missedJob.«end») = false := by
        apply decide_eq_false
        show ¬ t < (10 : Int)
        omega
      simp [condB, h2]
    simp [step, pendLoop, hc, stopLoop]
  have main : ∀ ns, (∀ t ∈ ns, (10 : Int) ≤ t) →
      runSteps sr ns ([(0, missedJob)], []) = ([(0, missedJob)], []) := by
    intro ns
    induction ns with
    | nil => intro _; rfl
    | cons t ts ih =>
      intro hall
      show List.foldl (fun s u => step sr u s) (step sr t ([(0, missedJob)], [])) ts
        = ([(0, missedJob)], [])
      rw [key t (hall t (List.mem_cons_self _ _))]
      exact ih (fun u hu => hall u (List.mem_cons_of_mem _ hu))
  refine ⟨main nows h, ?_⟩
  rw [main nows h]
  rfl

/-- Witness for C1: two poll snapshots 20 and 50, both past the window end
10 of `missedJob`. -/
theorem C1_thm_witness :
    runSteps sr0 [20, 50] ([(0, missedJob)], []) = ([(0, missedJob)], []) ∧
    loopDone (runSteps sr0 [20, 50] ([(0, missedJob)], [])) = false :=
  C1_thm sr0 [20, 50] (by decide)

/--
C2 counterexample: at snapshot `now = 5` the pending job `cjb` with
`window.start = 5` is NOT promoted (the source tests `data["start"] < now`
strictly), and the recording job `cjrec` with `window.end = 5` is NOT
stopped (the source tests `now > data["end"]` strictly): the iteration
leaves the state unchanged, refuting both `a job whose window.start equals
the snapshot is started` and `a Recording job whose window.end equals the
snapshot is stopped in that same iteration`.
-/
theorem C2_counterexample :
    step sr0 5 ([(0, cjb)], [(1, cjrec)]) = ([(0, cjb)], [(1, cjrec)]) := by
  decide

/--
C2 (amended): the transitions use strict inequalities on both boundaries:
after one iteration at snapshot `now`, a pending job's id is in the
Recording collection iff `window.start < now < window.end` and remains
Pending iff not; a recording job's id stays in the Recording collection iff
`¬(window.end < now)` — it is stopped exactly when `now > window.end` — and
never reappears among the pending jobs.
-/
theorem C2_thm (sr : Nat → Rec Nat → Nat × Nat × Nat) (now : Int)
    (records handling_records : JobMap Nat) (id : Nat) (d : Rec Nat)
    (hnd : (keys records ++ keys handling_records).Nodup) :
    ((id, d) ∈ records →
      ((id ∈ keys (step sr now (records, handling_records)).2
          ↔ (d.start < now ∧ now < d.«end»)) ∧
       (id ∈ keys (step sr now (records, handling_records)).1
          ↔ ¬(d.start < now ∧ now < d.«end»)))) ∧
    ((id, d) ∈ handling_records →
      ((id ∈ keys (step sr now (records, handling_records)).2 ↔ ¬(d.«end» < now)) ∧
       id ∉ keys (step sr now (records, handling_records)).1)) :=
  ⟨fun hmem => ⟨step_handling_mem_of_pending sr now _ _ id d hnd hmem,
      step_records_mem_of_pending sr now _ _ id d hnd hmem⟩,
   fun hmem => ⟨step_handling_mem_of_handling sr now _ _ id d hnd hmem,
      step_records_not_of_handling sr now _ _ id hnd (mem_keys.mpr ⟨d, hmem⟩)⟩⟩

/-- Witness for C2 at snapshot 7 with the pending job `wjb` (window
`[3, 10)`, hence strictly inside). -/
theorem C2_thm_witness :
    (0 ∈ keys (step sr0 7 ([(0, wjb)], [(1, wjrec)])).2
        ↔ ((3 : Int) < 7 ∧ (7 : Int) < 10)) ∧
    (0 ∈ keys (step sr0 7 ([(0, wjb)], [(1, wjrec)])).1
        ↔ ¬((3 : Int) < 7 ∧ (7 : Int) < 10)) :=
  (C2_thm sr0 7 [(0, wjb)] [(1, wjrec)] 0 wjb (by decide)).1 (by decide)

/--
C9: one poll iteration preserves the partition invariant.  If before the
iteration no job id occurs twice across the Pending (`records`) and
Recording (`handling_records`) collections, then afterwards (1) the two
collections still have pairwise-distinct, mutually disjoint id sets; (2) an
id was present before iff it is still present in exactly one of the two
collections or was discarded as Finished in this iteration (a recording job
with `window.end < now`); and (3) a job finished in this iteration is in
neither collection afterwards.  So no job is duplicated or lost by a
transition.
-/
theorem C9_thm (sr : Nat → Rec Nat → Nat × Nat × Nat) (now : Int)
    (records handling_records : JobMap Nat)
    (hnd : (keys records ++ keys handling_records).Nodup) :
    (keys (step sr now (records, handling_records)).1
      ++ keys (step sr now (records, handling_records)).2).Nodup ∧
    (∀ id, (id ∈ keys records ∨ id ∈ keys handling_records) ↔
      ((id ∈ keys (step sr now (records, handling_records)).1
        ∨ id ∈ keys (step sr now (records, handling_records)).2)
       ∨ ∃ d, (id, d) ∈ handling_records ∧ d.«end» < now)) ∧
    (∀ id d, (id, d) ∈ handling_records → d.«end» < now →
      id ∉ keys (step sr now (records, handling_records)).1 ∧
      id ∉ keys (step sr now (records, handling_records)).2) := by
  obtain ⟨hr, hh, hdisj⟩ := List.nodup_append.mp hnd
  refine ⟨step_nodup sr now records handling_records hnd, ?_, ?_⟩
  · intro id
    constructor
    · rintro (hidr | hidh)
      · obtain ⟨d, hd⟩ := mem_keys.mp hidr
        by_cases hc : d.start < now ∧ now < d.«end»
        · exact Or.inl (Or.inr
            ((step_handling_mem_of_pending sr now _ _ id d hnd hd).mpr hc))
        · exact Or.inl (Or.inl
            ((step_records_mem_of_pending sr now _ _ id d hnd hd).mpr hc))
      · obtain ⟨d, hd⟩ := mem_keys.mp hidh
        by_cases hc : d.«end» < now
        · exact Or.inr ⟨d, hd, hc⟩
        · exact Or.inl (Or.inr
            ((step_handling_mem_of_handling sr now _ _ id d hnd hd).mpr hc))
    · rintro ((hid | hid) | ⟨d, hd, _⟩)
      · left
        rw [step_fst sr now records handling_records hr] at hid
        exact (keys_filter_sublist _ _).subset hid
      · rw [step_snd sr now records handling_records hnd] at hid
        have h2 := (keys_filter_sublist _ _).subset hid
        rw [keys_append, keys_movedBy] at h2
        rcases List.mem_append.mp h2 with hba | hbb
        · exact Or.inr hba
        · exact Or.inl ((keys_filter_sublist _ _).subset hbb)
      · exact Or.inr (mem_keys.mpr ⟨d, hd⟩)
  · intro id d hd hend
    refine ⟨step_records_not_of_handling sr now _ _ id hnd (mem_keys.mpr ⟨d, hd⟩), ?_⟩
    rw [step_handling_mem_of_handling sr now _ _ id d hnd hd]
    exact fun hcontra => hcontra hend

/-- Witness for C9 at snapshot 7 on a two-job state. -/
theorem C9_thm_witness :
    (keys (step sr0 7 ([(0, wjb)], [(1, wjrec)])).1
      ++ keys (step sr0 7 ([(0, wjb)], [(1, wjrec)])).2).Nodup :=
  (C9_thm sr0 7 [(0, wjb)] [(1, wjrec)] (by decide)).1

/--
C10: frame effect of a promotion.  A pending job whose window contains the
snapshot ends the iteration in the Recording collection with a record equal
to its old record except that the handle fields `instance`, `player`,
`media` are now attached (so `uri`, `name`, `start`, `end` are unchanged);
a pending job that is not promoted keeps its exact old record in the
Pending collection, and a recording job that is not stopped keeps its exact
old record in the Recording collection — no other job's record is modified
by the promotion step.
-/
theorem C10_thm (sr : Nat → Rec Nat → Nat × Nat × Nat) (now : Int)
    (records handling_records : JobMap Nat)
    (hnd : (keys records ++ keys handling_records).Nodup) :
    (∀ id d, (id, d) ∈ records → d.start < now → now < d.«end» →
      lookupKey id (step sr now (records, handling_records)).2
        = some { d with inst := some (sr id d).1,
                        player := some (sr id d).2.1,
                        media := some (sr id d).2.2 }) ∧
    (∀ id d, (id, d) ∈ records → ¬(d.start < now ∧ now < d.«end») →
      lookupKey id (step sr now (records, handling_records)).1 = some d) ∧
    (∀ id d, (id, d) ∈ handling_records → ¬(d.«end» < now) →
      lookupKey id (step sr now (records, handling_records)).2 = some d) := by
  obtain ⟨hr, hh, hdisj⟩ := List.nodup_append.mp hnd
  have hmv := hand_nodup sr now records handling_records hnd
  have hmvf : (keys ((handling_records ++ movedBy sr now records).filter
      (fun p => !(decide (p.2.«end» < now))))).Nodup :=
    List.Nodup.sublist (keys_filter_sublist _ _) hmv
  refine ⟨?_, ?_, ?_⟩
  · intro id d hmem h1 h2
    rw [step_snd sr now records handling_records hnd]
    have hc : condB now d = true := (condB_iff now d).mpr ⟨h1, h2⟩
    have hmem2 : (id, promote sr id d) ∈ handling_records ++ movedBy sr now records :=
      List.mem_append_right _ (mem_movedBy sr now hmem hc)
    have hkeep : (!(decide ((promote sr id d).«end» < now))) = true := by
      rw [promote_end]
      simp
      omega
    have hmem3 : (id, promote sr id d)
        ∈ (handling_records ++ movedBy sr now records).filter
            (fun p => !(decide (p.2.«end» < now))) :=
      List.mem_filter.mpr ⟨hmem2, hkeep⟩
    exact lookupKey_eq_some hmvf hmem3
  · intro id d hmem hc
    rw [step_fst sr now records handling_records hr]
    have hcb : ¬(condB now d = true) := fun h => hc ((condB_iff now d).mp h)
    have hmem3 : (id, d) ∈ records.filter (fun p => !(condB now p.2)) :=
      List.mem_filter.mpr ⟨hmem, by simp [Bool.not_eq_true] at hcb ⊢; exact hcb⟩
    exact lookupKey_eq_some (List.Nodup.sublist (keys_filter_sublist _ _) hr) hmem3
  · intro id d hmem hc
    rw [step_snd sr now records handling_records hnd]
    have hmem3 : (id, d) ∈ (handling_records ++ movedBy sr now records).filter
        (fun p => !(decide (p.2.«end» < now))) :=
      List.mem_filter.mpr ⟨List.mem_append_left _ hmem, by simp [hc]⟩
    exact lookupKey_eq_some hmvf hmem3

/-- Witness for C10: at snapshot 7 the recording job 1 keeps its exact
record. -/
theorem C10_thm_witness :
    lookupKey 1 (step sr0 7 ([(0, wjb)], [(1, wjrec)])).2 = some wjrec :=
  (C10_thm sr0 7 [(0, wjb)] [(1, wjrec)] (by decide)).2.2 1 wjrec (by decide) (by decide)

theorem numbered_length {β : Type} :
    ∀ (l : List β) (n : Nat), (numbered n l).length = l.length := by
  intro l
  induction l with
  | nil => intro n; rfl
  | cons x xs ih =>
    intro n
    rw [numbered, List.length_cons, List.length_cons, ih]

theorem numbered_append {β : Type} (a b : List β) :
    ∀ n, numbered n (a ++ b) = numbered n a ++ numbered (n + a.length) b := by
  induction a with
  | nil => intro n; simp [numbered]
  | cons x xs ih =>
    intro n
    rw [List.cons_append, numbered, numbered, ih (n + 1)]
    have h1 : n + 1 + xs.length = n + (x :: xs).length := by
      rw [List.length_cons]
      omega
    rw [h1]
    rfl

theorem keys_numbered {β : Type} :
    ∀ (l : List β) (n : Nat), keys (numbered n l) = List.range' n l.length := by
  intro l
  induction l with
  | nil => intro n; rfl
  | cons x xs ih =>
    intro n
    rw [numbered, List.length_cons, List.range'_succ]
    rw [show keys ((n, x) :: numbered (n + 1) xs) = n :: keys (numbered (n + 1) xs) from rfl]
    rw [ih]

theorem inner_foldl {α : Type} (schedule : Schedule) :
    ∀ (stream_list : List StreamSource) (n : Nat) (acc : JobMap α),
      stream_list.foldl
        (fun st2 strm => (st2.1 + 1, st2.2 ++ [(st2.1, mkRec strm schedule)]))
        (n, acc)
      = (n + stream_list.length,
         acc ++ numbered n (stream_list.map (fun strm => mkRec strm schedule))) := by
  intro sl
  induction sl with
  | nil => intro n acc; simp [numbered]
  | cons s ss ih =>
    intro n acc
    rw [List.foldl_cons, ih (n + 1) (acc ++ [(n, mkRec s schedule)])]
    simp only [Prod.mk.injEq]
    constructor
    · rw [List.length_cons]
      omega
    · rw [List.map_cons, numbered, List.append_assoc]
      rfl

theorem outer_foldl {α : Type} (stream_list : List StreamSource) :
    ∀ (schedules : List Schedule) (n : Nat) (acc : JobMap α),
      schedules.foldl
        (fun st schedule =>
          stream_list.foldl
            (fun st2 strm => (st2.1 + 1, st2.2 ++ [(st2.1, mkRec strm schedule)]))
            st)
        (n, acc)
      = (n + schedules.length * stream_list.length,
         acc ++ numbered n (schedules.flatMap
             (fun schedule => stream_list.map (fun strm => mkRec strm schedule)))) := by
  intro schedules
  induction schedules with
  | nil => intro n acc; simp [numbered]
  | cons sch schs ih =>
    intro n acc
    rw [List.foldl_cons, inner_foldl sch stream_list n acc, ih]
    simp only [Prod.mk.injEq]
    constructor
    · rw [List.length_cons, Nat.succ_mul]
      omega
    · rw [List.flatMap_cons, numbered_append, List.length_map, List.append_assoc]

theorem jobs_length {α : Type} (stream_list : List StreamSource) :
    ∀ (schedules : List Schedule),
      (schedules.flatMap (fun schedule => stream_list.map
        (fun strm => (mkRec strm schedule : Rec α)))).length
      = schedules.length * stream_list.length := by
  intro schedules
  induction schedules with
  | nil => simp
  | cons sch schs ih =>
    rw [List.flatMap_cons, List.length_append, List.length_map, ih,
      List.length_cons, Nat.succ_mul]
    omega

/--
C6: the Job Initializer produces exactly `|schedules| × |stream_list|` jobs;
their ids, read in dict insertion order, are exactly `0, 1, ..., N-1`; and
the whole table equals the window-major closed form: the flat list of
(window, source) pairs — outer loop over windows, inner over sources — numbered
from 0 in emission order, each entry a fresh pending record (`mkRec` has all
three handle fields `none`).  Being a pure function of its two arguments,
the result is deterministic given identical inputs.
-/
theorem C6_thm (stream_list : List StreamSource) (schedules : List Schedule) :
    (initialize_records stream_list schedules : JobMap Nat).length
        = schedules.length * stream_list.length ∧
    keys (initialize_records stream_list schedules : JobMap Nat)
        = List.range (schedules.length * stream_list.length) ∧
    (initialize_records stream_list schedules : JobMap Nat)
        = numbered 0 (schedules.flatMap
            (fun schedule => stream_list.map (fun strm => mkRec strm schedule))) := by
  have he : (initialize_records stream_list schedules : JobMap Nat)
      = numbered 0 (schedules.flatMap
          (fun schedule => stream_list.map (fun strm => mkRec strm schedule))) := by
    rw [initialize_records, outer_foldl stream_list schedules 0 ([] : JobMap Nat)]
    rw [List.nil_append]
  refine ⟨?_, ?_, he⟩
  · rw [he, numbered_length, jobs_length]
  · rw [he, keys_numbered, jobs_length, List.range_eq_range']

/--
C7 counterexample: at snapshot 5 both jobs 0 and 1 have windows containing
the snapshot; the per-job action (modelling `generate_outfile` /
`start_record`) raises on job 0.  The walk aborts at job 0 with the dicts
unchanged: job 1, although in its window, is not processed (not promoted,
recorder never started), refuting the claim that one job's failure does not
prevent the remaining jobs of the iteration from being processed.
-/
theorem C7_counterexample :
    pendLoopE act0 5 [(0, cjob0), (1, cjob1)] ([(0, cjob0), (1, cjob1)], [])
      = Except.error (7, [(0, cjob0), (1, cjob1)], []) := rfl

/--
C7 (amended): an error raised while processing one job aborts the whole
pending walk immediately and propagates (there is no `try`/`except` in the
loop): if every in-window job of the prefix `pre` succeeds, the next job
`(id, d)` is in its window and its action raises `e`, then the walk returns
`Except.error e` carrying the dicts as of the raise, and every job of the
unprocessed tail `post` (with id not among the prefix's or the recording
collection's ids) still has its untouched record in the pending dict and
does not appear in the recording dict — the loop does not continue past the
failure.
-/
theorem C7_thm (act : Nat → Rec Nat → Except Nat (Nat × Nat × Nat)) (now : Int)
    (pre post : List (Nat × Rec Nat)) (id : Nat) (d : Rec Nat) (e : Nat)
    (records handling_records : JobMap Nat)
    (hok : ∀ p ∈ pre, condB now p.2 = true → ∃ v, act p.1 p.2 = Except.ok v)
    (hcond : condB now d = true) (hfail : act id d = Except.error e) :
    ∃ r2 h2, pendLoopE act now (pre ++ (id, d) :: post) (records, handling_records)
        = Except.error (e, r2, h2) ∧
      ∀ p ∈ post, p.1 ∉ keys pre → p.1 ∉ keys handling_records →
        (lookupKey p.1 r2 = lookupKey p.1 records ∧ p.1 ∉ keys h2) := by
  induction pre generalizing records handling_records with
  | nil =>
    refine ⟨records, handling_records, ?_, ?_⟩
    · rw [List.nil_append, pendLoopE, if_pos hcond, hfail]
    · intro p hp hp1 hp2
      exact ⟨rfl, hp2⟩
  | cons q pre ih =>
    obtain ⟨qid, qd⟩ := q
    rw [List.cons_append]
    by_cases hc : condB now qd = true
    · obtain ⟨v, hv⟩ := hok (qid, qd) (List.mem_cons_self _ _) hc
      obtain ⟨r2, h2, heq, hpost⟩ :=
        ih (removeKey qid records) (handling_records ++ [(qid, promoteWith v qd)])
          (fun p hp hcp => hok p (List.mem_cons_of_mem _ hp) hcp)
      refine ⟨r2, h2, ?_, ?_⟩
      · rw [pendLoopE, if_pos hc, hv]
        exact heq
      · intro p hp hp1 hp2
        have hkc : keys ((qid, qd) :: pre) = qid :: keys pre := rfl
        rw [hkc] at hp1
        have hne : p.1 ≠ qid := fun h => hp1 (h ▸ List.mem_cons_self _ _)
        have hp1' : p.1 ∉ keys pre := fun h => hp1 (List.mem_cons_of_mem _ h)
        have hp2' : p.1 ∉ keys (handling_records ++ [(qid, promoteWith v qd)]) := by
          rw [keys_append]
          intro h
          rcases List.mem_append.mp h with h | h
          · exact hp2 h
          · rw [show keys [(qid, promoteWith v qd)] = [qid] from rfl] at h
            exact hne (List.mem_singleton.mp h)
        obtain ⟨hl, hh⟩ := hpost p hp hp1' hp2'
        refine ⟨?_, hh⟩
        rw [hl, lookupKey_removeKey_ne hne]
    · obtain ⟨r2, h2, heq, hpost⟩ :=
        ih records handling_records
          (fun p hp hcp => hok p (List.mem_cons_of_mem _ hp) hcp)
      refine ⟨r2, h2, ?_, ?_⟩
      · rw [pendLoopE, if_neg hc]
        exact heq
      · intro p hp hp1 hp2
        have hkc : keys ((qid, qd) :: pre) = qid :: keys pre := rfl
        rw [hkc] at hp1
        exact hpost p hp (fun h => hp1 (List.mem_cons_of_mem _ h)) hp2

/-- Witness for C7: empty prefix, failing job 0, unprocessed tail `[(1,
cjob1)]`. -/
theorem C7_thm_witness :
    ∃ r2 h2, pendLoopE act0 5 ([] ++ (0, cjob0) :: [(1, cjob1)])
        ([(0, cjob0), (1, cjob1)], []) = Except.error (7, r2, h2) ∧
      ∀ p ∈ [(1, cjob1)], p.1 ∉ keys ([] : JobMap Nat) → p.1 ∉ keys ([] : JobMap Nat) →
        (lookupKey p.1 r2 = lookupKey p.1 [(0, cjob0), (1, cjob1)] ∧ p.1 ∉ keys h2) :=
  C7_thm act0 5 [] [(1, cjob1)] 0 cjob0 7 [(0, cjob0), (1, cjob1)] []
    (by intro p hp; exact absurd hp (List.not_mem_nil _)) (by decide) rfl

theorem getKey_ok_iff {V : Type} (k : String) :
    ∀ (data : List (String × V)),
      (∃ v, getKey data k = Except.ok v) ↔ k ∈ data.map Prod.fst := by
  intro data
  induction data with
  | nil =>
    constructor
    · rintro ⟨v, hv⟩
      exact absurd hv (by rw [getKey]; intro h; injection h)
    · intro h
      exact absurd h (List.not_mem_nil _)
  | cons p rest ih =>
    by_cases hp : p.1 = k
    · constructor
      · intro _
        rw [List.map_cons]
        exact hp ▸ List.mem_cons_self _ _
      · intro _
        exact ⟨p.2, by rw [getKey, if_pos hp]⟩
    · constructor
      · rintro ⟨v, hv⟩
        rw [getKey, if_neg hp] at hv
        rw [List.map_cons]
        exact List.mem_cons_of_mem _ (ih.mp ⟨v, hv⟩)
      · intro h
        rw [List.map_cons] at h
        rcases List.mem_cons.mp h with h | h
        · exact absurd h.symm hp
        · obtain ⟨v, hv⟩ := ih.mpr h
          exact ⟨v, by rw [getKey, if_neg hp]; exact hv⟩

/--
C8 counterexample: a parsed config that is complete for explicit-schedule
mode — it has `stream_list`, `schedule_dict` and `save_path` but no
`schedule_template` — makes `load_configuration` raise (`KeyError:
schedule_template`), even though the explicit mode selected by the absent
`-t` flag never uses that field.  This refutes `the unselected schedule
field is not required to be present`.
-/
theorem C8_counterexample :
    load_configuration data0 = Except.error ("schedule_template") := rfl

/--
C8 (amended): `load_configuration` subscripts all four keys unconditionally
(it never sees the mode flag, which is only consulted later in `main`), so
loading succeeds exactly when `stream_list`, `schedule_dict`,
`schedule_template` and `save_path` are all present — both schedule fields
are required regardless of the selected mode.
-/
theorem C8_thm {V : Type} (data : List (String × V)) :
    (∃ t, load_configuration data = Except.ok t) ↔
      (("stream_list" : String) ∈ data.map Prod.fst ∧
       ("schedule_dict" : String) ∈ data.map Prod.fst ∧
       ("schedule_template" : String) ∈ data.map Prod.fst ∧
       ("save_path" : String) ∈ data.map Prod.fst) := by
  constructor
  · rintro ⟨t, ht⟩
    rw [load_configuration] at ht
    cases h1 : getKey data ("stream_list") with
    | error e => rw [h1] at ht; exact absurd ht (by intro h; injection h)
    | ok v1 =>
      rw [h1] at ht
      cases h2 : getKey data ("schedule_dict") with
      | error e => rw [h2] at ht; exact absurd ht (by intro h; injection h)
      | ok v2 =>
        rw [h2] at ht
        cases h3 : getKey data ("schedule_template") with
        | error e => rw [h3] at ht; exact absurd ht (by intro h; injection h)
        | ok v3 =>
          rw [h3] at ht
          cases h4 : getKey data ("save_path") with
          | error e => rw [h4] at ht; exact absurd ht (by intro h; injection h)
          | ok v4 =>
            exact ⟨(getKey_ok_iff _ data).mp ⟨v1, h1⟩,
              (getKey_ok_iff _ data).mp ⟨v2, h2⟩,
              (getKey_ok_iff _ data).mp ⟨v3, h3⟩,
              (getKey_ok_iff _ data).mp ⟨v4, h4⟩⟩
  · rintro ⟨m1, m2, m3, m4⟩
    obtain ⟨v1, h1⟩ := (getKey_ok_iff _ data).mpr m1
    obtain ⟨v2, h2⟩ := (getKey_ok_iff _ data).mpr m2
    obtain ⟨v3, h3⟩ := (getKey_ok_iff _ data).mpr m3
    obtain ⟨v4, h4⟩ := (getKey_ok_iff _ data).mpr m4
    refine ⟨(v1, v2, v3, v4), ?_⟩
    rw [load_configuration, h1, h2, h3, h4]

theorem findName_not_mem {d : List String} {fn_str ext : String} :
    ∀ (fuel : Nat) (name : String) (n : Nat) (nm : String),
      findName d fn_str ext fuel name n = some nm → nm ∉ d := by
  intro fuel
  induction fuel with
  | zero =>
    intro name n nm h
    rw [findName] at h
    by_cases hm : name ∈ d
    · rw [if_pos hm] at h
      injection h
    · rw [if_neg hm] at h
      injection h with h
      subst h
      exact hm
  | succ fuel ih =>
    intro name n nm h
    rw [findName] at h
    by_cases hm : name ∈ d
    · rw [if_pos hm] at h
      exact ih _ _ _ h
    · rw [if_neg hm] at h
      injection h with h
      subst h
      exact hm

theorem findName_shape {d : List String} {fn_str ext : String} :
    ∀ (fuel : Nat) (name : String) (n : Nat) (nm : String),
      findName d fn_str ext fuel name n = some nm →
      (nm = name ∨ ∃ k : Nat, nm = fn_str ++ "_" ++ toString k ++ ext) := by
  intro fuel
  induction fuel with
  | zero =>
    intro name n nm h
    rw [findName] at h
    by_cases hm : name ∈ d
    · rw [if_pos hm] at h
      injection h
    · rw [if_neg hm] at h
      injection h with h
      exact Or.inl h.symm
  | succ fuel ih =>
    intro name n nm h
    rw [findName] at h
    by_cases hm : name ∈ d
    · rw [if_pos hm] at h
      rcases ih _ _ _ h with h | ⟨k, hk⟩
      · exact Or.inr ⟨n, h⟩
      · exact Or.inr ⟨k, hk⟩
    · rw [if_neg hm] at h
      injection h with h
      exact Or.inl h.symm

theorem data_append (s t : String) : (s ++ t).data = s.data ++ t.data := by
  cases s
  cases t
  rfl

theorem endswith_append (s t : String) : endswith (s ++ t) t = true := by
  rw [endswith]
  apply decide_eq_true
  show t.data <:+ (s ++ t).data
  rw [data_append]
  exact List.suffix_append s.data t.data

theorem generate_outfile_not_mem (stream_name : String) (listing : List String)
    (timestamp : String) (nm : String)
    (h : generate_outfile_name stream_name listing timestamp = some nm) :
    nm ∉ listing := by
  simp only [generate_outfile_name] at h
  have h1 := findName_not_mem _ _ _ _ h
  have h2 := findName_shape _ _ _ _ h
  have hend : endswith nm (".ts") = true := by
    rcases h2 with h2 | ⟨k, h2⟩
    · subst h2
      exact endswith_append _ _
    · subst h2
      exact endswith_append _ _
  intro hmem
  exact h1 (List.mem_filter.mpr ⟨hmem, hend⟩)

/--
C4 counterexample: in an empty directory (and with the first returned path
not yet created as a file), a call of the Output Namer for stream name
`Cam A` returns the plain base name with no `_0` disambiguator; a second
call in the same second sees the identical inputs (same timestamp, still
empty listing) and therefore returns the very same filename — not a
distinct `_0`-suffixed one.  This refutes the `even when the first returned
path has not yet been created as a file` part of the claim.
-/
theorem C4_counterexample :
    generate_outfile_name ("Cam A") [] ("20260101_120000")
      = some ("20260101_120000_Cam_A.ts") := by
  decide

/--
C4 (amended): the returned filename is never among the directory's existing
files at call time; and a second call in the same second returns a distinct
(suffixed) filename provided the first call's file exists in the directory
listing by then — here modelled by appending the first name to the listing.
Without that creation the second call repeats the first name (see the
counterexample).
-/
theorem C4_thm (stream_name timestamp : String) (listing : List String)
    (nm nm2 : String)
    (h1 : generate_outfile_name stream_name listing timestamp = some nm)
    (h2 : generate_outfile_name stream_name (listing ++ [nm]) timestamp = some nm2) :
    nm ∉ listing ∧ nm2 ∉ listing ++ [nm] ∧ nm2 ≠ nm := by
  have ha := generate_outfile_not_mem _ _ _ _ h1
  have hb := generate_outfile_not_mem _ _ _ _ h2
  refine ⟨ha, hb, ?_⟩
  intro he
  subst he
  exact hb (List.mem_append_right _ (List.mem_cons_self _ _))

/-- Witness for C4: first call in the empty directory yields the base name;
after that file is created, the second same-second call yields the `_0`
variant, distinct from the first. -/
theorem C4_thm_witness :
    ("20260101_120000_Cam_A.ts" : String) ∉ ([] : List String) ∧
    ("20260101_120000_Cam_A_0.ts" : String) ∉ [("20260101_120000_Cam_A.ts" : String)] ∧
    ("20260101_120000_Cam_A_0.ts" : String) ≠ ("20260101_120000_Cam_A.ts" : String) :=
  C4_thm ("Cam A") ("20260101_120000") [] ("20260101_120000_Cam_A.ts")
    ("20260101_120000_Cam_A_0.ts") (by decide) (by decide)

end stream
